import Mathlib

/-!
Verification of the `cpg_ratio` command-line tool (`src/main.rs`).

The program reads FASTA records, splits each sequence into non-overlapping
windows of a fixed size and writes one BedGraph-style line per window, scored
either by CG content (subcommand `cg`) or by CpG dinucleotide frequency
(subcommand `cpg`).

Sequences are byte arrays; we model bytes as `Nat` values
('A' = 65, 'C' = 67, 'G' = 71, 'T' = 84).  `u64` and `usize` values are
modelled as `Nat` (both are 64-bit in the deployed target; the single place
where unsigned wrap-around is reachable, `seq.len() - 1` at length 0, is
modelled explicitly by `usizeSub1`).  `f64` scores are modelled as exact
rationals; the rounding to binary64 and Rust's `Display` rendering of the
result are modelled separately by `toF64` and `fmtScore` below.
-/

/-- Model of `bio::io::fasta::Record` as used by the program: the program
only calls `record.id()` (a string) and `record.seq()` (a byte slice). -/
structure Record where
  id : String
  seq : List Nat
deriving DecidableEq

/-- `struct BdgRecord` (main.rs lines 30-35): one output interval. -/
structure BdgRecord where
  seqname : String
  start : Nat
  «end» : Nat
  score : ℚ
deriving DecidableEq

/-- `fn count_bigram` (main.rs lines 61-63):
`seq.windows(2)` as the list of adjacent pairs. -/
def bigrams : List Nat → List (Nat × Nat)
  | a :: b :: rest => (a, b) :: bigrams (b :: rest)
  | _ => []

/-- `fn count_bigram` (main.rs lines 61-63). -/
def count_bigram (seq : List Nat) (bigram : Nat × Nat) : Nat :=
  ((bigrams seq).filter (fun w => w == bigram)).length

/-- `fn count_base` (main.rs lines 64-66). -/
def count_base (seq : List Nat) (bases : List Nat) : Nat :=
  (seq.filter (fun b => bases.contains b)).length

/-- Wrapping `usize` subtraction of 1, as performed by `seq.len() - 1`
(main.rs line 84).  Rust release builds wrap on underflow, so at length 0
the result is `2^64 - 1`. -/
def usizeSub1 (n : Nat) : Nat :=
  (n + (2 ^ 64 - 1)) % 2 ^ 64

/-- Score computed by `CGCounter::next` (main.rs lines 110-112):
`(cg_count as f64) / (total_base_count as f64)` on the window slice,
kept as an exact rational.  Division by zero (empty window) yields 0 here,
standing in for the `NaN` the Rust code would produce. -/
def cgScore (w : List Nat) : ℚ :=
  (count_base w [67, 71] : ℚ) / (w.length : ℚ)

/-- Score computed by `CpGCounter::next` (main.rs lines 83-85):
`(cpg_count as f64) / (total_bigram_count as f64)` where
`total_bigram_count = seq.len() - 1` in `usize` arithmetic. -/
def cpgScore (w : List Nat) : ℚ :=
  (count_bigram w (67, 71) : ℚ) / (usizeSub1 w.length : ℚ)

/-- `struct CGCounter` (main.rs lines 96-100). -/
structure CGCounter where
  record : Record
  window_size : Nat
  current_idx : Nat
deriving DecidableEq

/-- `struct CpGCounter` (main.rs lines 68-72). -/
structure CpGCounter where
  record : Record
  window_size : Nat
  current_idx : Nat
deriving DecidableEq

/-- `impl Iterator for CGCounter` (main.rs lines 101-121).  Returns the
produced record together with the successor state; `none` models `None`.
The guard mirrors `current_idx + window_size > seq.len()`, and the slice
`&seq[start..end]` is `(drop start).take window_size`. -/
def CGCounter.next (c : CGCounter) : Option (BdgRecord × CGCounter) :=
  if c.record.seq.length < c.current_idx + c.window_size then
    none
  else
    some (⟨c.record.id, c.current_idx, c.current_idx + c.window_size,
            cgScore ((c.record.seq.drop c.current_idx).take c.window_size)⟩,
          ⟨c.record, c.window_size, c.current_idx + c.window_size⟩)

/-- `impl Iterator for CpGCounter` (main.rs lines 74-94). -/
def CpGCounter.next (c : CpGCounter) : Option (BdgRecord × CpGCounter) :=
  if c.record.seq.length < c.current_idx + c.window_size then
    none
  else
    some (⟨c.record.id, c.current_idx, c.current_idx + c.window_size,
            cpgScore ((c.record.seq.drop c.current_idx).take c.window_size)⟩,
          ⟨c.record, c.window_size, c.current_idx + c.window_size⟩)

/-- Fuel-bounded iterator drain: the `while let Some(record) = counter.next()`
loops of `main` (main.rs lines 138-140 and 148-150).  With positive window
size, fuel `seq.length + 1` is always sufficient (see `cg_run_eq` below);
with window size 0 the real loop never terminates, which the relational
semantics `IterDrains` below captures exactly. -/
def drainF {σ α : Type} (next : σ → Option (α × σ)) : Nat → σ → List α
  | 0, _ => []
  | fuel + 1, s =>
    match next s with
    | none => []
    | some (a, s2) => a :: drainF next fuel s2

/-- `struct CgArgs` (main.rs lines 18-22); `window_size: u64`. -/
structure CgArgs where
  window_size : Nat
deriving DecidableEq

/-- `struct CpGArgs` (main.rs lines 24-28). -/
structure CpGArgs where
  window_size : Nat
deriving DecidableEq

/-- `enum Commands` (main.rs lines 11-16). -/
inductive Commands where
  | Cg (args : CgArgs)
  | CpG (args : CpGArgs)
deriving DecidableEq

/-- The window size carried by either subcommand. -/
def Commands.windowSize : Commands → Nat
  | .Cg args => args.window_size
  | .CpG args => args.window_size

/-- One iteration of the outer `while let` body of `main`
(main.rs lines 131-152): build the counter for this record with
`current_idx = 0` and drain it. -/
def processRecord : Commands → Record → List BdgRecord
  | .Cg args, r => drainF CGCounter.next (r.seq.length + 1) ⟨r, args.window_size, 0⟩
  | .CpG args, r => drainF CpGCounter.next (r.seq.length + 1) ⟨r, args.window_size, 0⟩

/-- The outer loop `while let Some(Ok(record)) = records.next()`
(main.rs line 130).  The FASTA reader yields a stream of items, modelled as
`some record` for a successfully parsed record and `none` for a parse
failure.  A parse failure makes the `Some(Ok(..))` pattern fail, which
exits the loop: the error is never inspected. -/
def mainLoop (cmd : Commands) : List (Option Record) → List BdgRecord
  | [] => []
  | none :: _ => []
  | some r :: rest => processRecord cmd r ++ mainLoop cmd rest

/-- Whole-program model of `main` (main.rs lines 124-154): the produced
output records together with the process exit status.  `main` returns `()`
on every path (output writes are modelled as infallible, matching a healthy
stdout; only a write failure could panic through `.unwrap()`), so the exit
status is 0 both after draining the whole stream and after stopping early
at a malformed record. -/
def runMain (cmd : Commands) (stream : List (Option Record)) :
    List BdgRecord × Nat :=
  (mainLoop cmd stream, 0)

/-- Spec-side description of the windows the `cg` subcommand produces on one
record: `⌊L / W⌋` windows, the k-th covering `[k*W, k*W + W)`, each scored on
its exact slice.  To be compared with `processRecord` (refinement). -/
def cgWindowsSpec (r : Record) (W : Nat) : List BdgRecord :=
  (List.range (r.seq.length / W)).map fun k =>
    ⟨r.id, k * W, k * W + W, cgScore ((r.seq.drop (k * W)).take W)⟩

/-- Spec-side description of the windows the `cpg` subcommand produces. -/
def cpgWindowsSpec (r : Record) (W : Nat) : List BdgRecord :=
  (List.range (r.seq.length / W)).map fun k =>
    ⟨r.id, k * W, k * W + W, cpgScore ((r.seq.drop (k * W)).take W)⟩

/-- The window of `r` described by an output record: the byte slice
`seq[start..end]`. -/
def windowOf (r : Record) (b : BdgRecord) : List Nat :=
  (r.seq.drop b.start).take (b.«end» - b.start)

/-- Big-step relational semantics of one counter's drain loop: `IterDrains
next s out` holds iff the loop starting in state `s` terminates and emits
exactly `out`.  With window size 0 no derivation exists (the loop runs
forever), matching the real program. -/
inductive IterDrains {σ α : Type} (next : σ → Option (α × σ)) : σ → List α → Prop
  | stop {s : σ} : next s = none → IterDrains next s []
  | step {s : σ} {a : α} {s2 : σ} {out : List α} :
      next s = some (a, s2) → IterDrains next s2 out → IterDrains next s (a :: out)

/-- Big-step relational semantics of `main`'s record loop. -/
inductive Drains : Commands → List (Option Record) → List BdgRecord → Prop
  | nil (cmd : Commands) : Drains cmd [] []
  | badRecord (cmd : Commands) (rest : List (Option Record)) :
      Drains cmd (none :: rest) []
  | okCg {args : CgArgs} {r : Record} {rest : List (Option Record)}
      {o1 o2 : List BdgRecord} :
      IterDrains CGCounter.next ⟨r, args.window_size, 0⟩ o1 →
      Drains (Commands.Cg args) rest o2 →
      Drains (Commands.Cg args) (some r :: rest) (o1 ++ o2)
  | okCpg {args : CpGArgs} {r : Record} {rest : List (Option Record)}
      {o1 o2 : List BdgRecord} :
      IterDrains CpGCounter.next ⟨r, args.window_size, 0⟩ o1 →
      Drains (Commands.CpG args) rest o2 →
      Drains (Commands.CpG args) (some r :: rest) (o1 ++ o2)

/-!
### Model of `f64` values and of Rust's `Display` formatting

The scores above are exact rationals, but the program stores them as `f64`
and prints them with `write!("{}", score)`.  For counts and lengths below
`2^53` (any realistic sequence), the `f64` division is the correctly
rounded binary64 value of the exact quotient, so the printed text is
Rust's `Display` of `toF64 score`.  Rust's `Display` for finite `f64`
prints the shortest decimal digit string that parses (round to nearest,
ties to even) back to the same `f64`, in positional notation without an
exponent.  `toF64`, `shortestDigits` and `fmtF64` model exactly that.
All recursions are fuelled structurally so that every definition reduces
inside `decide`.
-/

/-- Number of base-2 digits of `m`, counted with explicit fuel
(`fuel ≥ m` always suffices since `m` at least halves each step). -/
def bitLenAux : Nat → Nat → Nat
  | 0, _ => 0
  | _ + 1, 0 => 0
  | fuel + 1, m + 1 => bitLenAux fuel ((m + 1) / 2) + 1

/-- Number of base-2 digits of `n` (`bitLen 0 = 0`, and
`2 ^ (bitLen n - 1) ≤ n < 2 ^ bitLen n` for positive `n`). -/
def bitLen (n : Nat) : Nat := bitLenAux n n

/-- Number of base-10 digits of `m`, with explicit fuel. -/
def digLenAux : Nat → Nat → Nat
  | 0, _ => 0
  | _ + 1, 0 => 0
  | fuel + 1, m + 1 => digLenAux fuel ((m + 1) / 10) + 1

/-- Number of base-10 digits of `n`. -/
def digLen (n : Nat) : Nat := digLenAux n n

/-- Base-10 digits of `n`, most significant first, with explicit fuel. -/
def digitsAux : Nat → Nat → List Nat
  | 0, _ => []
  | _ + 1, 0 => []
  | fuel + 1, m + 1 => digitsAux fuel ((m + 1) / 10) ++ [(m + 1) % 10]

/-- Base-10 digits of `n`, most significant first (`natDigits 0 = []`). -/
def natDigits (n : Nat) : List Nat := digitsAux n n

/-- Rational power with natural exponent, written out so that it reduces
inside the kernel. -/
def qnpow (b : ℚ) : Nat → ℚ
  | 0 => 1
  | n + 1 => b * qnpow b n

/-- Rational power with integer exponent; used for exact scaling by powers
of 2 and 10. -/
def qpow (b : ℚ) (e : Int) : ℚ :=
  if 0 ≤ e then qnpow b e.toNat else 1 / qnpow b (-e).toNat

/-- Floor of a rational, computed directly on the (always positive)
denominator with flooring integer division. -/
def qfloor (x : ℚ) : Int :=
  x.num.fdiv (x.den : Int)

/-- Round a rational to the nearest integer, ties to even: the rounding
mode IEEE-754 binary64 arithmetic and decimal-to-`f64` parsing use. -/
def rndHalfEven (x : ℚ) : Int :=
  let f := qfloor x
  let r := x - (f : ℚ)
  if 2 * r < 1 then f
  else if 1 < 2 * r then f + 1
  else if f % 2 = 0 then f else f + 1

/-- `⌊log₂ a⌋` for a positive rational, computed exactly from the binary
lengths of numerator and denominator. -/
def floorLog2 (a : ℚ) : Int :=
  let d : Int := (bitLen a.num.toNat : Int) - (bitLen a.den : Int)
  if qpow 2 d ≤ a then d else d - 1

/-- `⌊log₁₀ a⌋` for a positive rational. -/
def floorLog10 (a : ℚ) : Int :=
  let d : Int := (digLen a.num.toNat : Int) - (digLen a.den : Int)
  if qpow 10 d ≤ a then d else d - 1

/-- The exact rational value of the IEEE-754 binary64 (`f64`) nearest to
`q` (round to nearest, ties to even), including the subnormal range.
Values beyond the finite `f64` range do not arise from this program's
scores and are not special-cased. -/
def toF64 (q : ℚ) : ℚ :=
  if q = 0 then 0
  else
    let s : ℚ := if q < 0 then -1 else 1
    let a : ℚ := if q < 0 then -q else q
    let e0 : Int := floorLog2 a
    let e : Int := if e0 ≤ -1022 then -1022 else e0
    let m : Int := rndHalfEven (a * qpow 2 (52 - e))
    s * (m : ℚ) * qpow 2 (e - 52)

/-- The decimal value `d * 10 ^ (k - digLen d + 1)`: digit string `d`
with its leading digit in the `10 ^ k` place. -/
def digitsValue (d : Nat) (k : Int) : ℚ :=
  (d : ℚ) * qpow 10 (k - (digLen d : Int) + 1)

/-- The `n`-significant-digit decimal nearest to `a` (leading digit in the
`10 ^ k` place, `k = ⌊log₁₀ a⌋`), returned as digit string and corrected
place (rounding can carry into the next decade). -/
def sigCandidate (a : ℚ) (k : Int) (n : Nat) : Nat × Int :=
  let d := (rndHalfEven (a * qpow 10 ((n : Int) - 1 - k))).toNat
  if 10 ^ n ≤ d then (d / 10, k + 1) else (d, k)

/-- Try candidate digit counts in order, returning the first whose decimal
value parses back (correctly rounded) to `a`; the final fallback is
returned unconditionally (17 significant digits always round-trip). -/
def searchFrom (a : ℚ) (k : Int) : List Nat → Nat × Int
  | [] => sigCandidate a k 17
  | n :: rest =>
    let c := sigCandidate a k n
    if toF64 (digitsValue c.1 c.2) = a then c else searchFrom a k rest

/-- Shortest round-tripping decimal representation of the positive `f64`
value `a`: its digit string and the decimal place of the leading digit. -/
def shortestDigits (a : ℚ) : Nat × Int :=
  searchFrom a (floorLog10 a) ((List.range 16).map (· + 1))

/-- The character for decimal digit `d`. -/
def digitChar (d : Nat) : Char := Char.ofNat (48 + d)

/-- Positional rendering of a digit string whose leading digit sits in the
`10 ^ k` place: trailing zeros for integers, an interior decimal point, or
a leading `0.` with padding zeros.  Rust's `Display` for `f64` never uses
exponent notation. -/
def renderPositional (ds : List Char) (k : Int) : List Char :=
  if (ds.length : Int) - 1 ≤ k then
    ds ++ List.replicate (k - ((ds.length : Int) - 1)).toNat '0'
  else if 0 ≤ k then
    ds.take (k.toNat + 1) ++ '.' :: ds.drop (k.toNat + 1)
  else
    '0' :: '.' :: (List.replicate ((-k).toNat - 1) '0' ++ ds)

/-- Characters printed by Rust's `Display` for the finite `f64` value
`x` (assumed already rounded, i.e. `x = toF64 x`). -/
def fmtF64 (x : ℚ) : List Char :=
  if x = 0 then ['0']
  else
    let sgn : List Char := if x < 0 then ['-'] else []
    let c := shortestDigits (if x < 0 then -x else x)
    sgn ++ renderPositional ((natDigits c.1).map digitChar) c.2

/-- Text produced for a score field by `write!("{}", score)`: the exact
rational score is first rounded to its `f64` value, then rendered the way
Rust's `Display` renders a finite `f64`. -/
def fmtScore (q : ℚ) : String :=
  ⟨fmtF64 (toF64 q)⟩

/-- Text produced for a `u64` field by `write!("{}", n)`. -/
def natToString (n : Nat) : String :=
  if n = 0 then "0" else ⟨(natDigits n).map digitChar⟩

/-- `BdgRecord::writeln` (main.rs lines 45-51): the full output line,
`"{}\t{}\t{}\t{}"` plus the newline appended by `writeln!`. -/
def BdgRecord.writelnStr (b : BdgRecord) : String :=
  b.seqname ++ "\t" ++ natToString b.start ++ "\t" ++ natToString b.«end» ++
    "\t" ++ fmtScore b.score ++ "\n"

/-- All bytes the program writes to stdout for a given subcommand and
input stream. -/
def outputOf (cmd : Commands) (stream : List (Option Record)) : String :=
  String.join (((runMain cmd stream).1).map BdgRecord.writelnStr)

/-- Test fixture: the record `>id` / `ACGCGT` from the specification's
worked example. -/
def testRec6 : Record := ⟨"id", [65, 67, 71, 67, 71, 84]⟩

/-- Test fixture: a record of length 4, not a multiple of the window size 3
used in the tests. -/
def testRec4 : Record := ⟨"id", [65, 67, 71, 84]⟩

/-- Test fixture: a record of length 2. -/
def testRec2 : Record := ⟨"id2", [67, 71]⟩

/-!
### Proof infrastructure

Batteries marks the `Rat` field operations irreducible; making them
semireducible again lets `decide` evaluate concrete scores and formatted
output.
-/

attribute [local semireducible] Rat.add Rat.mul Rat.sub Rat.inv

set_option maxRecDepth 100000

lemma cg_next_none {r : Record} {W idx : Nat} (h : r.seq.length < idx + W) :
    CGCounter.next ⟨r, W, idx⟩ = none := by
  simp [CGCounter.next, h]

lemma cg_next_some {r : Record} {W idx : Nat} (h : ¬ r.seq.length < idx + W) :
    CGCounter.next ⟨r, W, idx⟩ =
      some (⟨r.id, idx, idx + W, cgScore ((r.seq.drop idx).take W)⟩,
            ⟨r, W, idx + W⟩) := by
  simp [CGCounter.next, h]

lemma cpg_next_none {r : Record} {W idx : Nat} (h : r.seq.length < idx + W) :
    CpGCounter.next ⟨r, W, idx⟩ = none := by
  simp [CpGCounter.next, h]

lemma cpg_next_some {r : Record} {W idx : Nat} (h : ¬ r.seq.length < idx + W) :
    CpGCounter.next ⟨r, W, idx⟩ =
      some (⟨r.id, idx, idx + W, cpgScore ((r.seq.drop idx).take W)⟩,
            ⟨r, W, idx + W⟩) := by
  simp [CpGCounter.next, h]

/-- With positive window size and enough fuel, the CG drain loop starting at
cursor `idx` produces exactly one window per remaining full window. -/
lemma cg_drain_eq (r : Record) (W : Nat) (hW : 0 < W) :
    ∀ m idx fuel : Nat, (r.seq.length - idx) / W = m → m < fuel →
      drainF CGCounter.next fuel ⟨r, W, idx⟩ =
        (List.range m).map (fun k =>
          ⟨r.id, idx + k * W, idx + k * W + W,
            cgScore ((r.seq.drop (idx + k * W)).take W)⟩) := by
  intro m
  induction m with
  | zero =>
    intro idx fuel hm hf
    obtain ⟨f, rfl⟩ : ∃ f, fuel = f + 1 := ⟨fuel - 1, by omega⟩
    have hlt : r.seq.length - idx < W := (Nat.div_eq_zero_iff hW).mp hm
    have hg : r.seq.length < idx + W := by omega
    simp [drainF, cg_next_none hg]
  | succ m ih =>
    intro idx fuel hm hf
    obtain ⟨f, rfl⟩ : ∃ f, fuel = f + 1 := ⟨fuel - 1, by omega⟩
    have hge : W ≤ r.seq.length - idx := by
      by_contra hc
      have h0 : (r.seq.length - idx) / W = 0 :=
        (Nat.div_eq_zero_iff hW).mpr (by omega)
      rw [h0] at hm
      omega
    have hg : ¬ r.seq.length < idx + W := by omega
    have hm2 : (r.seq.length - (idx + W)) / W = m := by
      have hsub : r.seq.length - (idx + W) = r.seq.length - idx - W := by omega
      have hdiv := Nat.div_eq (r.seq.length - idx) W
      rw [if_pos ⟨hW, hge⟩] at hdiv
      rw [hsub]
      omega
    have hstep : drainF CGCounter.next (f + 1) ⟨r, W, idx⟩ =
        (⟨r.id, idx, idx + W, cgScore ((r.seq.drop idx).take W)⟩ : BdgRecord) ::
          drainF CGCounter.next f ⟨r, W, idx + W⟩ := by
      simp [drainF, cg_next_some hg]
    rw [hstep, ih (idx + W) f hm2 (by omega), List.range_succ_eq_map,
      List.map_cons, List.map_map]
    congr 1
    · simp
    · congr 1
      funext k
      have he : idx + (k + 1) * W = idx + W + k * W := by ring
      simp only [Function.comp_apply, he]

/-- CpG analogue of `cg_drain_eq`. -/
lemma cpg_drain_eq (r : Record) (W : Nat) (hW : 0 < W) :
    ∀ m idx fuel : Nat, (r.seq.length - idx) / W = m → m < fuel →
      drainF CpGCounter.next fuel ⟨r, W, idx⟩ =
        (List.range m).map (fun k =>
          ⟨r.id, idx + k * W, idx + k * W + W,
            cpgScore ((r.seq.drop (idx + k * W)).take W)⟩) := by
  intro m
  induction m with
  | zero =>
    intro idx fuel hm hf
    obtain ⟨f, rfl⟩ : ∃ f, fuel = f + 1 := ⟨fuel - 1, by omega⟩
    have hlt : r.seq.length - idx < W := (Nat.div_eq_zero_iff hW).mp hm
    have hg : r.seq.length < idx + W := by omega
    simp [drainF, cpg_next_none hg]
  | succ m ih =>
    intro idx fuel hm hf
    obtain ⟨f, rfl⟩ : ∃ f, fuel = f + 1 := ⟨fuel - 1, by omega⟩
    have hge : W ≤ r.seq.length - idx := by
      by_contra hc
      have h0 : (r.seq.length - idx) / W = 0 :=
        (Nat.div_eq_zero_iff hW).mpr (by omega)
      rw [h0] at hm
      omega
    have hg : ¬ r.seq.length < idx + W := by omega
    have hm2 : (r.seq.length - (idx + W)) / W = m := by
      have hsub : r.seq.length - (idx + W) = r.seq.length - idx - W := by omega
      have hdiv := Nat.div_eq (r.seq.length - idx) W
      rw [if_pos ⟨hW, hge⟩] at hdiv
      rw [hsub]
      omega
    have hstep : drainF CpGCounter.next (f + 1) ⟨r, W, idx⟩ =
        (⟨r.id, idx, idx + W, cpgScore ((r.seq.drop idx).take W)⟩ : BdgRecord) ::
          drainF CpGCounter.next f ⟨r, W, idx + W⟩ := by
      simp [drainF, cpg_next_some hg]
    rw [hstep, ih (idx + W) f hm2 (by omega), List.range_succ_eq_map,
      List.map_cons, List.map_map]
    congr 1
    · simp
    · congr 1
      funext k
      have he : idx + (k + 1) * W = idx + W + k * W := by ring
      simp only [Function.comp_apply, he]

/-- The `cg` subcommand's per-record run equals its spec-side window list. -/
lemma cg_run_eq (r : Record) (W : Nat) (hW : 0 < W) :
    processRecord (Commands.Cg ⟨W⟩) r = cgWindowsSpec r W := by
  have h := cg_drain_eq r W hW (r.seq.length / W) 0 (r.seq.length + 1)
    (by simp) (by have := Nat.div_le_self r.seq.length W; omega)
  simpa [processRecord, cgWindowsSpec] using h

/-- The `cpg` subcommand's per-record run equals its spec-side window list. -/
lemma cpg_run_eq (r : Record) (W : Nat) (hW : 0 < W) :
    processRecord (Commands.CpG ⟨W⟩) r = cpgWindowsSpec r W := by
  have h := cpg_drain_eq r W hW (r.seq.length / W) 0 (r.seq.length + 1)
    (by simp) (by have := Nat.div_le_self r.seq.length W; omega)
  simpa [processRecord, cpgWindowsSpec] using h

/-- A base count never exceeds the window length. -/
lemma count_base_le (w bs : List Nat) : count_base w bs ≤ w.length :=
  List.length_filter_le _ _

/-- Counting bytes that are `'C'` or `'G'` is the sum of the two
individual byte counts. -/
lemma count_base_pair (w : List Nat) :
    count_base w [67, 71] = w.count 67 + w.count 71 := by
  induction w with
  | nil => rfl
  | cons a t ih =>
    by_cases h67 : a = 67
    · subst h67
      simp [count_base, List.filter_cons, List.count_cons] at ih ⊢
      omega
    · by_cases h71 : a = 71
      · subst h71
        simp [count_base, List.filter_cons, List.count_cons] at ih ⊢
        omega
      · simp [count_base, List.filter_cons, List.count_cons, h67, h71,
          Ne.symm h67, Ne.symm h71] at ih ⊢
        omega

/-- `windows(2)` produces one pair per adjacent position. -/
lemma bigrams_length (l : List Nat) : (bigrams l).length = l.length - 1 := by
  induction l with
  | nil => rfl
  | cons a t ih =>
    cases t with
    | nil => rfl
    | cons b t2 =>
      simp [bigrams] at ih ⊢
      omega

/-- A bigram count never exceeds the number of adjacent pairs. -/
lemma count_bigram_le (w : List Nat) (bg : Nat × Nat) :
    count_bigram w bg ≤ (bigrams w).length :=
  List.length_filter_le _ _

/-- The bigram count is the `List.count` of the pair among adjacent pairs. -/
lemma count_bigram_count (w : List Nat) (bg : Nat × Nat) :
    count_bigram w bg = (bigrams w).count bg := by
  rw [count_bigram, List.count, List.countP_eq_length_filter]

/-- `usize` wrapping subtraction agrees with truncated subtraction on
positive representable values. -/
lemma usizeSub1_eq {n : Nat} (h1 : 1 ≤ n) (h2 : n ≤ 2 ^ 64) :
    usizeSub1 n = n - 1 := by
  unfold usizeSub1
  norm_num at h2 ⊢
  omega

/-- Every full window slice has length exactly `W`. -/
lemma slice_length {r : Record} {W k : Nat} (hk : k < r.seq.length / W) :
    ((r.seq.drop (k * W)).take W).length = W := by
  have hle : (k + 1) * W ≤ r.seq.length / W * W :=
    Nat.mul_le_mul_right W hk
  have hdm : r.seq.length / W * W ≤ r.seq.length := Nat.div_mul_le_self _ _
  simp only [List.length_take, List.length_drop]
  have : k * W + W ≤ r.seq.length := by
    have : (k + 1) * W = k * W + W := by ring
    omega
  omega

/-- The drain-loop relation is deterministic: a state drains to at most one
output list. -/
lemma iterDrains_det {σ α : Type} {next : σ → Option (α × σ)} {s : σ}
    {o1 o2 : List α} (h1 : IterDrains next s o1) (h2 : IterDrains next s o2) :
    o1 = o2 := by
  induction h1 generalizing o2 with
  | stop hn =>
    cases h2 with
    | stop _ => rfl
    | step hs _ => rw [hn] at hs; exact absurd hs (by simp)
  | step hs _ ih =>
    cases h2 with
    | stop hn => rw [hn] at hs; exact absurd hs (by simp)
    | step hs2 htail =>
      rw [hs] at hs2
      obtain ⟨rfl, rfl⟩ : _ ∧ _ := by
        have := Option.some.inj hs2
        exact ⟨congrArg Prod.fst this, congrArg Prod.snd this⟩
      rw [ih htail]

/-- The record-loop relation is deterministic. -/
lemma drains_det {cmd : Commands} {stream : List (Option Record)}
    {o1 o2 : List BdgRecord} (h1 : Drains cmd stream o1)
    (h2 : Drains cmd stream o2) : o1 = o2 := by
  induction h1 generalizing o2 with
  | nil cmd => cases h2 with
    | nil => rfl
  | badRecord cmd rest => cases h2 with
    | badRecord => rfl
  | okCg hiter _ ih =>
    cases h2 with
    | okCg hiter2 htail2 =>
      rw [iterDrains_det hiter hiter2, ih htail2]
  | okCpg hiter _ ih =>
    cases h2 with
    | okCpg hiter2 htail2 =>
      rw [iterDrains_det hiter hiter2, ih htail2]

/-- The record loop on an error-free stream processes every record in
order. -/
lemma mainLoop_map_some (cmd : Commands) (recs : List Record) :
    mainLoop cmd (recs.map some) = recs.flatMap (processRecord cmd) := by
  induction recs with
  | nil => rfl
  | cons r t ih => simp [mainLoop, ih, List.flatMap]

/-- The record loop stops at the first parse failure, emitting exactly the
windows of the preceding records. -/
lemma mainLoop_stops (cmd : Commands) (recs : List Record)
    (rest : List (Option Record)) :
    mainLoop cmd (recs.map some ++ none :: rest) =
      recs.flatMap (processRecord cmd) := by
  induction recs with
  | nil => rfl
  | cons r t ih => simp [mainLoop, ih, List.flatMap]

/-- Every produced decimal digit is below 10. -/
lemma digitsAux_lt (fuel : Nat) : ∀ m d, d ∈ digitsAux fuel m → d < 10 := by
  induction fuel with
  | zero => intro m d h; simp [digitsAux] at h
  | succ f ih =>
    intro m d h
    cases m with
    | zero => simp [digitsAux] at h
    | succ m2 =>
      simp only [digitsAux, List.mem_append, List.mem_singleton] at h
      rcases h with h | h
      · exact ih _ _ h
      · subst h; exact Nat.mod_lt _ (by omega)

/-- Decimal digits are below 10. -/
lemma natDigits_lt {n d : Nat} (h : d ∈ natDigits n) : d < 10 :=
  digitsAux_lt n n d h

/-- Digit characters are never a newline. -/
lemma digitChar_ne_newline {d : Nat} (h : d < 10) : digitChar d ≠ '\n' := by
  interval_cases d <;> decide

/-- Digit characters are never a tab. -/
lemma digitChar_ne_tab {d : Nat} (h : d < 10) : digitChar d ≠ '\t' := by
  interval_cases d <;> decide

/-- The rendered text of a `u64` field contains no newline. -/
lemma natToString_no_newline (n : Nat) : '\n' ∉ (natToString n).data := by
  unfold natToString
  split
  · decide
  · intro hmem
    simp only [String.data] at hmem
    obtain ⟨d, hd, he⟩ := List.mem_map.mp hmem
    exact digitChar_ne_newline (natDigits_lt hd) he

/-- Characters of a positional rendering come from the digit list or are a
zero or a point. -/
lemma renderPositional_mem {ds : List Char} {k : Int} {c : Char}
    (h : c ∈ renderPositional ds k) : c ∈ ds ∨ c = '0' ∨ c = '.' := by
  unfold renderPositional at h
  split at h
  · rcases List.mem_append.mp h with h | h
    · exact Or.inl h
    · exact Or.inr (Or.inl (List.eq_of_mem_replicate h))
  · split at h
    · rcases List.mem_append.mp h with h | h
      · exact Or.inl (List.take_subset _ _ h)
      · rcases List.mem_cons.mp h with h | h
        · exact Or.inr (Or.inr h)
        · exact Or.inl (List.drop_subset _ _ h)
    · rcases List.mem_cons.mp h with h | h
      · exact Or.inr (Or.inl h)
      · rcases List.mem_cons.mp h with h | h
        · exact Or.inr (Or.inr h)
        · rcases List.mem_append.mp h with h | h
          · exact Or.inr (Or.inl (List.eq_of_mem_replicate h))
          · exact Or.inl h

/-- The rendered text of an `f64` value contains no newline. -/
lemma fmtF64_no_newline (x : ℚ) : '\n' ∉ fmtF64 x := by
  unfold fmtF64
  split
  · decide
  · intro hmem
    rcases List.mem_append.mp hmem with h | h
    · split at h <;> simp_all
    · rcases renderPositional_mem h with h | h | h
      · obtain ⟨d, hd, he⟩ := List.mem_map.mp h
        exact digitChar_ne_newline (natDigits_lt hd) he
      · simp at h
      · simp at h

/-- The score field text contains no newline. -/
lemma fmtScore_no_newline (q : ℚ) : '\n' ∉ (fmtScore q).data :=
  fmtF64_no_newline (toF64 q)

/-- Data of an appended string is the appended data. -/
lemma str_data_append (s t : String) : (s ++ t).data = s.data ++ t.data := by
  cases s; cases t; rfl

/-!
### Claims
-/

/-- C1 counterexample: on the length-4 sequence `"ACGT"` with window size 3
the claim predicts `ceil(4/3) = 2` windows covering `[0, 4)`, the second
truncated to length 1; the program produces a single window `[0, 3)` and
never emits a truncated window. -/
theorem c1_counterexample :
    (processRecord (Commands.Cg ⟨3⟩) testRec4).length = 1 ∧
    (testRec4.seq.length + 3 - 1) / 3 = 2 := by
  decide

/-- C1 (amended): for every sequence of length L and window size W > 0 the
window iterator (either scorer) produces exactly `⌊L / W⌋` windows, all of
length exactly W, the k-th covering `[k*W, k*W + W)` in increasing order,
covering `[0, W * ⌊L / W⌋)` exactly once; the trailing `L mod W` bytes are
dropped, so no truncated window is produced or scored. -/
theorem c1_windows (r : Record) (W : Nat) (hW : 0 < W) :
    processRecord (Commands.Cg ⟨W⟩) r = cgWindowsSpec r W ∧
    processRecord (Commands.CpG ⟨W⟩) r = cpgWindowsSpec r W ∧
    (processRecord (Commands.Cg ⟨W⟩) r).length = r.seq.length / W ∧
    (processRecord (Commands.CpG ⟨W⟩) r).length = r.seq.length / W := by
  refine ⟨cg_run_eq r W hW, cpg_run_eq r W hW, ?_, ?_⟩ <;>
    simp [cg_run_eq r W hW, cpg_run_eq r W hW, cgWindowsSpec, cpgWindowsSpec]

/-- Witness for C1's amended theorem at the length-4 fixture. -/
theorem c1_windows_witness :
    processRecord (Commands.Cg ⟨3⟩) testRec4 = cgWindowsSpec testRec4 3 ∧
    processRecord (Commands.CpG ⟨3⟩) testRec4 = cpgWindowsSpec testRec4 3 ∧
    (processRecord (Commands.Cg ⟨3⟩) testRec4).length = testRec4.seq.length / 3 ∧
    (processRecord (Commands.CpG ⟨3⟩) testRec4).length = testRec4.seq.length / 3 :=
  c1_windows testRec4 3 (by decide)

/-- C2: `main` performs no window-size validation at all.  With
`--window-size 0` and a non-empty input the CG iterator emits an unbounded
stream of empty `[0, 0)` windows instead of an InvalidWindowSize rejection:
here 5 steps of fuel yield 5 records, and the cursor never advances, so the
iterator never returns `None` and the drain loop never exits. -/
theorem c2_zero_window_emits :
    drainF CGCounter.next 5 ⟨⟨"id", [65]⟩, 0, 0⟩ =
      List.replicate 5 ⟨"id", 0, 0, 0⟩ := by
  decide

/-- C3 counterexample: with a malformed second record the program stops
there (the third record is not processed) but exits with status 0, not
non-zero as claimed; a zero exit therefore does not imply all records were
drained. -/
theorem c3_counterexample :
    runMain (Commands.Cg ⟨3⟩) [some testRec6, none, some testRec2] =
      (processRecord (Commands.Cg ⟨3⟩) testRec6, 0) := by
  decide

/-- C3 (amended): a parse failure terminates processing at that record —
records before it are processed in full, the bad record is not skipped and
nothing after it is read — but the process exits with status 0 both in that
case and after draining all input (the `while let Some(Ok(..))` pattern
silently discards the parse error, and `main` returns `()`). -/
theorem c3_exit_status (cmd : Commands) (hW : 0 < cmd.windowSize)
    (recs : List Record) (rest : List (Option Record)) :
    runMain cmd (recs.map some ++ none :: rest) =
      (recs.flatMap (processRecord cmd), 0) ∧
    runMain cmd (recs.map some) = (recs.flatMap (processRecord cmd), 0) :=
  ⟨by simp [runMain, mainLoop_stops], by simp [runMain, mainLoop_map_some]⟩

/-- Witness for C3's amended theorem. -/
theorem c3_exit_status_witness :
    runMain (Commands.Cg ⟨3⟩) ([testRec6].map some ++ none :: [some testRec2]) =
      ([testRec6].flatMap (processRecord (Commands.Cg ⟨3⟩)), 0) ∧
    runMain (Commands.Cg ⟨3⟩) ([testRec6].map some) =
      ([testRec6].flatMap (processRecord (Commands.Cg ⟨3⟩)), 0) :=
  c3_exit_status (Commands.Cg ⟨3⟩) (by decide) [testRec6] [some testRec2]

/-- C4: every window the `cg` subcommand scores gets score
`(count of 'C' + count of 'G') / window length`, and on windows drawn from
the alphabet {A,C,G,T} (indeed on any bytes) the score lies in `[0, 1]`. -/
theorem c4_cg_score (r : Record) (W : Nat) (hW : 0 < W) (b : BdgRecord)
    (hb : b ∈ processRecord (Commands.Cg ⟨W⟩) r) :
    b.score = (((windowOf r b).count 67 + (windowOf r b).count 71 : Nat) : ℚ) /
        ((windowOf r b).length : ℚ) ∧
    ((∀ x ∈ windowOf r b, x = 65 ∨ x = 67 ∨ x = 71 ∨ x = 84) →
      0 ≤ b.score ∧ b.score ≤ 1) := by
  rw [cg_run_eq r W hW, cgWindowsSpec] at hb
  obtain ⟨k, hk, rfl⟩ := List.mem_map.mp hb
  rw [List.mem_range] at hk
  have hwin : windowOf r
      ⟨r.id, k * W, k * W + W, cgScore ((r.seq.drop (k * W)).take W)⟩ =
        (r.seq.drop (k * W)).take W := by
    simp [windowOf, Nat.add_sub_cancel_left]
  rw [hwin]
  have hlen : ((r.seq.drop (k * W)).take W).length = W := slice_length hk
  constructor
  · show cgScore _ = _
    rw [cgScore, count_base_pair]
  · intro _
    have hcb : count_base ((r.seq.drop (k * W)).take W) [67, 71] ≤
        ((r.seq.drop (k * W)).take W).length := count_base_le _ _
    have hpos : (0 : ℚ) < (((r.seq.drop (k * W)).take W).length : ℚ) := by
      rw [hlen]
      exact_mod_cast hW
    constructor
    · show (0 : ℚ) ≤ cgScore _
      rw [cgScore]
      exact div_nonneg (Nat.cast_nonneg _) (Nat.cast_nonneg _)
    · show cgScore _ ≤ 1
      rw [cgScore, div_le_one hpos]
      exact_mod_cast hcb

/-- Witness for C4 on the first window of the worked example. -/
theorem c4_cg_score_witness : (0 : ℚ) ≤ (2 : ℚ) / 3 ∧ (2 : ℚ) / 3 ≤ 1 :=
  (c4_cg_score testRec6 3 (by decide) ⟨"id", 0, 3, (2 : ℚ) / 3⟩
    (by decide)).2 (by decide)

/-- C5: every window the `cpg` subcommand scores (window length
`N = W ≥ 2`; `W < 2^64` since it is a `u64`) gets score
`(count of adjacent "CG" pairs) / (N - 1)`, and the score lies in `[0, 1]`. -/
theorem c5_cpg_score (r : Record) (W : Nat) (hW2 : 2 ≤ W) (hW64 : W < 2 ^ 64)
    (b : BdgRecord) (hb : b ∈ processRecord (Commands.CpG ⟨W⟩) r) :
    b.score = ((bigrams (windowOf r b)).count (67, 71) : ℚ) /
        (((windowOf r b).length - 1 : Nat) : ℚ) ∧
    0 ≤ b.score ∧ b.score ≤ 1 := by
  rw [cpg_run_eq r W (by omega), cpgWindowsSpec] at hb
  obtain ⟨k, hk, rfl⟩ := List.mem_map.mp hb
  rw [List.mem_range] at hk
  have hwin : windowOf r
      ⟨r.id, k * W, k * W + W, cpgScore ((r.seq.drop (k * W)).take W)⟩ =
        (r.seq.drop (k * W)).take W := by
    simp [windowOf, Nat.add_sub_cancel_left]
  rw [hwin]
  have hlen : ((r.seq.drop (k * W)).take W).length = W := slice_length hk
  have hsub : usizeSub1 ((r.seq.drop (k * W)).take W).length =
      ((r.seq.drop (k * W)).take W).length - 1 :=
    usizeSub1_eq (by omega) (by omega)
  have hcnt : count_bigram ((r.seq.drop (k * W)).take W) (67, 71) ≤
      ((r.seq.drop (k * W)).take W).length - 1 := by
    have h1 := count_bigram_le ((r.seq.drop (k * W)).take W) (67, 71)
    have h2 := bigrams_length ((r.seq.drop (k * W)).take W)
    omega
  have hpos : (0 : ℚ) < ((((r.seq.drop (k * W)).take W).length - 1 : Nat) : ℚ) := by
    have : 0 < ((r.seq.drop (k * W)).take W).length - 1 := by omega
    exact_mod_cast this
  refine ⟨?_, ?_, ?_⟩
  · show cpgScore _ = _
    rw [cpgScore, count_bigram_count, hsub]
  · show (0 : ℚ) ≤ cpgScore _
    rw [cpgScore]
    exact div_nonneg (Nat.cast_nonneg _) (Nat.cast_nonneg _)
  · show cpgScore _ ≤ 1
    rw [cpgScore, hsub, div_le_one hpos]
    exact_mod_cast hcnt

/-- Witness for C5 on the first window of the worked example. -/
theorem c5_cpg_score_witness : (0 : ℚ) ≤ (1 : ℚ) / 2 ∧ (1 : ℚ) / 2 ≤ 1 :=
  ((c5_cpg_score testRec6 3 (by decide) (by decide) ⟨"id", 0, 3, (1 : ℚ) / 2⟩
    (by decide)).2)

/-- C6: output order is fully determined by input order — the error-free
stream is processed record by record in input order with no interleaving
(the output is the concatenation of each record's windows), every output
line carries the identifier of the record that produced it, and within one
record the windows appear in strictly increasing start order. -/
theorem c6_output_order (cmd : Commands) (hW : 0 < cmd.windowSize) :
    (∀ recs : List Record,
      (runMain cmd (recs.map some)).1 = recs.flatMap (processRecord cmd)) ∧
    (∀ (r : Record) (b : BdgRecord), b ∈ processRecord cmd r →
      b.seqname = r.id) ∧
    (∀ r : Record,
      List.Pairwise (· < ·) ((processRecord cmd r).map BdgRecord.start)) := by
  refine ⟨fun recs => by simp [runMain, mainLoop_map_some], ?_, ?_⟩
  · intro r b hb
    cases cmd with
    | Cg args =>
      obtain ⟨W⟩ := args
      rw [cg_run_eq r W hW, cgWindowsSpec] at hb
      obtain ⟨k, _, rfl⟩ := List.mem_map.mp hb
      rfl
    | CpG args =>
      obtain ⟨W⟩ := args
      rw [cpg_run_eq r W hW, cpgWindowsSpec] at hb
      obtain ⟨k, _, rfl⟩ := List.mem_map.mp hb
      rfl
  · intro r
    cases cmd with
    | Cg args =>
      obtain ⟨W⟩ := args
      rw [cg_run_eq r W hW, cgWindowsSpec, List.map_map]
      refine List.pairwise_map.mpr ?_
      exact (List.pairwise_lt_range _).imp
        (fun h => mul_lt_mul_of_pos_right h hW)
    | CpG args =>
      obtain ⟨W⟩ := args
      rw [cpg_run_eq r W hW, cpgWindowsSpec, List.map_map]
      refine List.pairwise_map.mpr ?_
      exact (List.pairwise_lt_range _).imp
        (fun h => mul_lt_mul_of_pos_right h hW)

/-- Witness for C6 on a two-record stream. -/
theorem c6_output_order_witness :
    (runMain (Commands.Cg ⟨3⟩) ([testRec6, testRec2].map some)).1 =
      [testRec6, testRec2].flatMap (processRecord (Commands.Cg ⟨3⟩)) :=
  (c6_output_order (Commands.Cg ⟨3⟩) (by decide)).1 [testRec6, testRec2]

/-- C7: on the single record `>id` / `ACGCGT`, `cg --window-size 3` writes
exactly the two claimed lines (scores printed as `f64` text
`0.6666666666666666`), and `cpg --window-size 3` produces the two windows
`[0, 3)` and `[3, 6)`, each scored 0.5. -/
theorem c7_example :
    outputOf (Commands.Cg ⟨3⟩) [some testRec6] =
      "id\t0\t3\t0.6666666666666666\nid\t3\t6\t0.6666666666666666\n" ∧
    (runMain (Commands.CpG ⟨3⟩) [some testRec6]).1 =
      [⟨"id", 0, 3, (1 : ℚ) / 2⟩, ⟨"id", 3, 6, (1 : ℚ) / 2⟩] := by
  constructor
  · decide
  · decide

/-- C8: the formatter renders one line of exactly the four fields
identifier, start, end, score, in that order, separated by tabs and
terminated by a newline; the line contains no other newline, provided the
identifier itself is tab- and newline-free (FASTA identifiers are, being
whitespace-delimited). -/
theorem c8_formatter (b : BdgRecord) (ht : '\t' ∉ b.seqname.data)
    (hn : '\n' ∉ b.seqname.data) :
    b.writelnStr = String.intercalate "\t"
        [b.seqname, natToString b.start, natToString b.«end»,
          fmtScore b.score] ++ "\n" ∧
    b.writelnStr.data.count '\n' = 1 := by
  refine ⟨rfl, ?_⟩
  have h1 : b.seqname.data.count '\n' = 0 := List.count_eq_zero.mpr hn
  have h2 : (natToString b.start).data.count '\n' = 0 :=
    List.count_eq_zero.mpr (natToString_no_newline _)
  have h3 : (natToString b.«end»).data.count '\n' = 0 :=
    List.count_eq_zero.mpr (natToString_no_newline _)
  have h4 : (fmtScore b.score).data.count '\n' = 0 :=
    List.count_eq_zero.mpr (fmtScore_no_newline _)
  unfold BdgRecord.writelnStr
  simp [str_data_append, List.count_append, h1, h2, h3, h4]

/-- Witness for C8 at a concrete record. -/
theorem c8_formatter_witness :
    (⟨"id", 0, 3, (2 : ℚ) / 3⟩ : BdgRecord).writelnStr =
      String.intercalate "\t"
        ["id", natToString 0, natToString 3, fmtScore ((2 : ℚ) / 3)] ++ "\n" ∧
    (⟨"id", 0, 3, (2 : ℚ) / 3⟩ : BdgRecord).writelnStr.data.count '\n' = 1 :=
  c8_formatter ⟨"id", 0, 3, (2 : ℚ) / 3⟩ (by decide) (by decide)

/-- C9: the program is deterministic — any two terminating executions on the
same parsed input stream with the same arguments produce the same record
list and hence byte-identical output text. -/
theorem c9_deterministic (cmd : Commands) (stream : List (Option Record))
    (o1 o2 : List BdgRecord) (h1 : Drains cmd stream o1)
    (h2 : Drains cmd stream o2) :
    String.join (o1.map BdgRecord.writelnStr) =
      String.join (o2.map BdgRecord.writelnStr) ∧ o1 = o2 := by
  have h := drains_det h1 h2
  exact ⟨by rw [h], h⟩

/-- Witness for C9: two executions on the worked example. -/
theorem c9_deterministic_witness :
    String.join ([(⟨"id", 0, 3, (2 : ℚ) / 3⟩ : BdgRecord),
        ⟨"id", 3, 6, (2 : ℚ) / 3⟩].map BdgRecord.writelnStr) =
      String.join ([(⟨"id", 0, 3, (2 : ℚ) / 3⟩ : BdgRecord),
        ⟨"id", 3, 6, (2 : ℚ) / 3⟩].map BdgRecord.writelnStr) ∧
    [(⟨"id", 0, 3, (2 : ℚ) / 3⟩ : BdgRecord), ⟨"id", 3, 6, (2 : ℚ) / 3⟩] =
      [(⟨"id", 0, 3, (2 : ℚ) / 3⟩ : BdgRecord), ⟨"id", 3, 6, (2 : ℚ) / 3⟩] := by
  have hi : IterDrains CGCounter.next ⟨testRec6, 3, 0⟩
      [⟨"id", 0, 3, (2 : ℚ) / 3⟩, ⟨"id", 3, 6, (2 : ℚ) / 3⟩] :=
    IterDrains.step
      (show CGCounter.next ⟨testRec6, 3, 0⟩ =
        some (⟨"id", 0, 3, (2 : ℚ) / 3⟩, ⟨testRec6, 3, 3⟩) by decide)
      (IterDrains.step
        (show CGCounter.next ⟨testRec6, 3, 3⟩ =
          some (⟨"id", 3, 6, (2 : ℚ) / 3⟩, ⟨testRec6, 3, 6⟩) by decide)
        (IterDrains.stop (show CGCounter.next ⟨testRec6, 3, 6⟩ = none by decide)))
  have hd : Drains (Commands.Cg ⟨3⟩) [some testRec6]
      [⟨"id", 0, 3, (2 : ℚ) / 3⟩, ⟨"id", 3, 6, (2 : ℚ) / 3⟩] :=
    Drains.okCg hi (Drains.nil _)
  exact c9_deterministic (Commands.Cg ⟨3⟩) [some testRec6] _ _ hd hd

/-- C10: with window size 0 each call to `next` (either counter) returns
`Some` of a record with start 0 and end 0 and leaves the cursor unchanged,
so the drain loop consumes any amount of fuel without ever seeing `None`:
the per-sequence loop in `main` does not terminate.  (The rational model
renders the CG score `0/0` — `NaN` in `f64` — and the CpG score
`0/(2^64 - 1)` — the wrapped `usize` denominator — both as 0.) -/
theorem c10_zero_window (r : Record) (fuel : Nat) :
    drainF CGCounter.next fuel ⟨r, 0, 0⟩ =
      List.replicate fuel ⟨r.id, 0, 0, cgScore []⟩ ∧
    drainF CpGCounter.next fuel ⟨r, 0, 0⟩ =
      List.replicate fuel ⟨r.id, 0, 0, cpgScore []⟩ := by
  induction fuel with
  | zero => exact ⟨rfl, rfl⟩
  | succ f ih =>
    have hg : ¬ r.seq.length < 0 + 0 := by omega
    constructor
    · simp [drainF, cg_next_some hg, List.replicate_succ, ih.1]
    · simp [drainF, cpg_next_some hg, List.replicate_succ, ih.2]
